import Mathlib

/-!
# Verification of the identity-keyed taint registry and propagation algebra

Shallow embedding of the IAST taint-tracking core of `dd-trace-py`
(`src/ddtrace/appsec/_iast/_taint_tracking/Utils/StringUtils.h`), together
with the registry and range-algebra behaviour described by its specification.

The only function whose body appears under `src/` is `get_unique_id`
(StringUtils.h, lines 13-17), which is `reinterpret_cast<uintptr_t>(str)` on
the `PyObject*` handle.  The remaining operations
(`is_notinterned_notfasttainted_unicode`, `set_fast_tainted_if_notinterned_unicode`,
`new_pyobject_id`, the taint registry and the range algebra) are only declared
there; their definitions are modelled from the specification and marked as such.
-/

namespace TaintTracking

/-- A provenance tag: opaque metadata naming the origin of tainted data. -/
abbrev ProvenanceTag := String

/-- A taint range `{start, stop, source}` over a value's own index space.
The spec calls the second field `end`; that is a Lean keyword, so it is
named `stop` here.  Well-formedness (`start < stop`) is stated separately. -/
structure TaintRange where
  start : Nat
  stop : Nat
  source : ProvenanceTag
deriving DecidableEq

/-- A taint record: a sequence of taint ranges.  The data-model invariant
(sorted by start, non-overlapping) is a separate predicate, not baked in. -/
abbrev TaintRecord := List TaintRange

/-- Attributes of a host string object that the fast path inspects:
whether it is a unicode object and whether the host interned it. -/
structure PyObjAttrs where
  isUnicode : Bool
  interned : Bool
deriving DecidableEq

/-- The state of a pointed-to host object, as visible through a handle:
its attributes, its content (as code units) and its fast-taint bit. -/
structure PyObjView where
  attrs : PyObjAttrs
  content : List Nat
  fastTainted : Bool
deriving DecidableEq

/-- A `PyObject*` value handle: the pointer's numeric value (`addr`)
together with the state of the object it points to. -/
structure Handle where
  addr : Nat
  pointee : PyObjView
deriving DecidableEq

/-- From the source (StringUtils.h lines 13-17):
`return reinterpret_cast<uintptr_t>(str);` — the id of a handle is the
numeric value of the pointer itself, nothing else. -/
def get_unique_id (str : Handle) : Nat :=
  str.addr

/-- An Identity Key `{address, generation}` per the data model. -/
structure IdentityKey where
  address : Nat
  generation : Nat
deriving DecidableEq

/-- Modelled from the spec: Identity Key derivation (§4.1) — the address
component is the numeric identity of the handle at observation time; the
generation is supplied by the registry's reuse detection. -/
def deriveIdentityKey (h : Handle) (gen : Nat) : IdentityKey :=
  ⟨h.addr, gen⟩

/-- C9: `unique_id(handle)` returns exactly the address component of the
handle's Identity Key, deterministically (it is a pure function of the
handle, equal to the numeric identity of the handle at observation time). -/
theorem unique_id_is_identity_key_address :
    ∀ (h : Handle) (gen : Nat),
      get_unique_id h = (deriveIdentityKey h gen).address ∧
      get_unique_id h = h.addr := by
  intro h gen
  exact ⟨rfl, rfl⟩

/-- C10: `get_unique_id` depends only on the pointer value, never on the
pointee: equal addresses give equal ids whatever the pointee states are
(two-run statement); distinct addresses give distinct ids, in particular for
content-equal handles; and replacing the pointee state (mutating or tainting
the value) never changes the id. -/
theorem unique_id_pointer_only :
    (∀ h₁ h₂ : Handle, h₁.addr = h₂.addr → get_unique_id h₁ = get_unique_id h₂) ∧
    (∀ h₁ h₂ : Handle, h₁.addr ≠ h₂.addr → get_unique_id h₁ ≠ get_unique_id h₂) ∧
    (∀ h₁ h₂ : Handle, h₁.pointee.content = h₂.pointee.content →
      h₁.addr ≠ h₂.addr → get_unique_id h₁ ≠ get_unique_id h₂) ∧
    (∀ (h : Handle) (p : PyObjView), get_unique_id ⟨h.addr, p⟩ = get_unique_id h) := by
  refine ⟨fun h₁ h₂ e => e, fun h₁ h₂ ne => ne, fun h₁ h₂ _ ne => ne, fun h p => rfl⟩

/-- Witness for C10 at concrete handles: two handles at address 7 with
different pointee states get the same id; handles at 7 and 8 with equal
content get different ids; tainting the pointee keeps the id. -/
theorem unique_id_pointer_only_witness :
    get_unique_id ⟨7, ⟨⟨true, false⟩, [1, 2], false⟩⟩ =
      get_unique_id ⟨7, ⟨⟨true, false⟩, [3], true⟩⟩ ∧
    get_unique_id ⟨7, ⟨⟨true, false⟩, [1, 2], false⟩⟩ ≠
      get_unique_id ⟨8, ⟨⟨true, false⟩, [1, 2], false⟩⟩ := by
  refine ⟨unique_id_pointer_only.1 _ _ rfl, ?_⟩
  exact unique_id_pointer_only.2.2.1 ⟨7, ⟨⟨true, false⟩, [1, 2], false⟩⟩
    ⟨8, ⟨⟨true, false⟩, [1, 2], false⟩⟩ rfl (by decide)

/-! ## Association-list helpers for the registry and the live-object table -/

/-- Lookup in an association list keyed by address. -/
def lookupA {α : Type} : List (Nat × α) → Nat → Option α
  | [], _ => none
  | (k, v) :: rest, a => if k = a then some v else lookupA rest a

/-- Remove every binding for a key. -/
def eraseA {α : Type} : List (Nat × α) → Nat → List (Nat × α)
  | [], _ => []
  | (k, v) :: rest, a => if k = a then eraseA rest a else (k, v) :: eraseA rest a

/-- Upsert a binding for a key. -/
def insertA {α : Type} (l : List (Nat × α)) (a : Nat) (v : α) : List (Nat × α) :=
  (a, v) :: eraseA l a

theorem lookupA_eraseA_self {α : Type} (l : List (Nat × α)) (a : Nat) :
    lookupA (eraseA l a) a = none := by
  induction l with
  | nil => rfl
  | cons kv rest ih =>
    obtain ⟨k, v⟩ := kv
    by_cases h : k = a <;> simp [eraseA, lookupA, h, ih]

theorem lookupA_eraseA_ne {α : Type} (l : List (Nat × α)) (a b : Nat) (h : a ≠ b) :
    lookupA (eraseA l a) b = lookupA l b := by
  induction l with
  | nil => rfl
  | cons kv rest ih =>
    obtain ⟨k, v⟩ := kv
    by_cases hk : k = a
    · subst hk; simp [eraseA, lookupA, h, ih]
    · by_cases hb : k = b <;> simp [eraseA, lookupA, hk, hb, ih, Ne.symm h]

theorem lookupA_insertA_self {α : Type} (l : List (Nat × α)) (a : Nat) (v : α) :
    lookupA (insertA l a v) a = some v := by
  simp [insertA, lookupA]

theorem lookupA_insertA_ne {α : Type} (l : List (Nat × α)) (a b : Nat) (v : α)
    (h : a ≠ b) : lookupA (insertA l a v) b = lookupA l b := by
  simp [insertA, lookupA, h, lookupA_eraseA_ne l a b h]

/-! ## The engine: live objects, fast-taint bits, taint registry

The registry, the lifecycle hooks and the fast-path bodies are not under
`src/` (StringUtils.h only declares `is_notinterned_notfasttainted_unicode`,
`set_fast_tainted_if_notinterned_unicode` and `new_pyobject_id`), so the
state machine below is modelled from the specification (§3-§4, §7). -/

/-- A live host object: its generation tag (`objId`, fresh per allocation,
playing the role of the Identity Key's generation) and its attributes. -/
structure LiveObj where
  objId : Nat
  attrs : PyObjAttrs
deriving DecidableEq

/-- A registry entry: the generation it was written for and the record. -/
structure RegEntry where
  objId : Nat
  record : TaintRecord
deriving DecidableEq

/-- The engine state: the live-object table (address to object), the set of
addresses whose objects carry the fast-taint bit, the taint registry
(address to entry) and the next fresh generation tag. -/
structure EngineState where
  objs : List (Nat × LiveObj)
  fastBits : List Nat
  registry : List (Nat × RegEntry)
  nextId : Nat
deriving DecidableEq

/-- Modelled from the spec: body of `is_notinterned_notfasttainted_unicode`
(declared at StringUtils.h lines 30-31, definition not under `src/`).
Per §4.3 and its name: true exactly when the object is a unicode object,
is not interned, and its fast-taint bit is unset — i.e. "definitely not
tainted"; interned and non-unicode objects conservatively answer false. -/
def is_notinterned_notfasttainted_unicode (attrs : PyObjAttrs) (fastTainted : Bool) : Bool :=
  attrs.isUnicode && !attrs.interned && !fastTainted

/-- The Fast-Taint Marker query `is_definitely_untainted` on the engine
state: applies `is_notinterned_notfasttainted_unicode` to the live object
at `addr` (false when no object lives there). -/
def isDefinitelyUntainted (s : EngineState) (addr : Nat) : Bool :=
  match lookupA s.objs addr with
  | some o => is_notinterned_notfasttainted_unicode o.attrs (decide (addr ∈ s.fastBits))
  | none => false

/-- Modelled from the spec: body of `set_fast_tainted_if_notinterned_unicode`
(declared at StringUtils.h lines 33-34, definition not under `src/`).
Sets the fast-taint bit on the object at `addr` only when it is a
non-interned unicode object (§4.2 policy: never set the bit on an
interned value); otherwise leaves the state unchanged. -/
def set_fast_tainted_if_notinterned_unicode (s : EngineState) (addr : Nat) : EngineState :=
  match lookupA s.objs addr with
  | some o =>
    if o.attrs.isUnicode && !o.attrs.interned then
      { s with fastBits := addr :: s.fastBits }
    else s
  | none => s

/-- Modelled from the spec: Taint Registry `set` (§4.4).  When the object is
interned the write is rejected as a no-op (`InternedWriteRejected`, §7);
an empty record is not stored (entries exist only for tainted values);
otherwise the entry is upserted for the object's current generation and the
fast-taint marker is set via `set_fast_tainted_if_notinterned_unicode`. -/
def taintSet (s : EngineState) (addr : Nat) (rec : TaintRecord) : EngineState :=
  match lookupA s.objs addr with
  | none => s
  | some o =>
    if o.attrs.interned then s
    else if rec = [] then s
    else
      set_fast_tainted_if_notinterned_unicode
        { s with registry := insertA s.registry addr ⟨o.objId, rec⟩ } addr

/-- Modelled from the spec: `mark_tainted(handle, source)` (§6) — `set` with
a single full-length range `[0, len)`. -/
def mark_tainted (s : EngineState) (addr : Nat) (tag : ProvenanceTag) (len : Nat) :
    EngineState :=
  taintSet s addr [⟨0, len, tag⟩]

/-- Modelled from the spec: Taint Registry `get` / `query_taint` (§4.4, §6).
Resolves the entry at the handle's address and validates it against stale
reuse: a generation mismatch is handled locally by returning the empty
record (`StaleIdentity`, §7), never as a failure. -/
def query_taint (s : EngineState) (addr : Nat) : TaintRecord :=
  match lookupA s.objs addr with
  | none => []
  | some o =>
    match lookupA s.registry addr with
    | none => []
    | some e => if e.objId = o.objId then e.record else []

/-- Modelled from the spec: Taint Registry `clear` (§4.4) — removes the
entry and clears the marker bit. -/
def clearTaint (s : EngineState) (addr : Nat) : EngineState :=
  { s with
    registry := eraseA s.registry addr
    fastBits := s.fastBits.filter (fun a => !(a == addr)) }

/-- Modelled from the spec: the host's destruction notification (§4.4,
`on_destroy`): clear the registry entry and the bit, then drop the object. -/
def destroyObj (s : EngineState) (addr : Nat) : EngineState :=
  let s' := clearTaint s addr
  { s' with objs := eraseA s'.objs addr }

/-- Modelled from the spec: allocation of a fresh host object at `addr`.
The new object gets a fresh generation tag and its physical fast-taint bit
starts unset; a stale registry entry keyed at `addr` (a missed destruction)
is not eagerly removed — the generation check in `query_taint` guards it. -/
def allocObj (s : EngineState) (addr : Nat) (attrs : PyObjAttrs) : EngineState :=
  { objs := insertA s.objs addr ⟨s.nextId, attrs⟩
    fastBits := s.fastBits.filter (fun a => !(a == addr))
    registry := s.registry
    nextId := s.nextId + 1 }

/-- The events the host can drive the engine with. -/
inductive Event where
  | alloc (addr : Nat) (attrs : PyObjAttrs)
  | destroy (addr : Nat)
  | mark (addr : Nat) (tag : ProvenanceTag) (len : Nat)
  | clear (addr : Nat)
  | prop (addr : Nat) (rec : TaintRecord)
deriving DecidableEq

/-- One engine step per event; `prop` is the registry write performed after
a Range Algebra computation (§4.5: the write is a separate caller step). -/
def step (s : EngineState) (e : Event) : EngineState :=
  match e with
  | .alloc a attrs => allocObj s a attrs
  | .destroy a => destroyObj s a
  | .mark a t n => mark_tainted s a t n
  | .clear a => clearTaint s a
  | .prop a r => taintSet s a r

/-- The initial engine state: nothing live, nothing tainted. -/
def initState : EngineState :=
  ⟨[], [], [], 0⟩

/-- Running a trace of host events from the initial state. -/
def run (evs : List Event) : EngineState :=
  evs.foldl step initState

/-! ## Reachable-state invariants -/

/-- Membership in the bit set after clearing the bit at `addr`. -/
theorem mem_filter_ne (l : List Nat) (a addr : Nat) :
    a ∈ l.filter (fun x => !(x == addr)) ↔ a ∈ l ∧ a ≠ addr := by
  simp [List.mem_filter]

/-- The inductive invariant of reachable engine states:
generation tags are fresh, the registry stores no empty record, every valid
non-interned unicode entry has its fast-taint bit set (the Fast-Taint
Marker contract of §4.3), and no interned object ever carries the bit. -/
structure Inv (s : EngineState) : Prop where
  objIdLt : ∀ a o, lookupA s.objs a = some o → o.objId < s.nextId
  regIdLt : ∀ a e, lookupA s.registry a = some e → e.objId < s.nextId
  regNonempty : ∀ a e, lookupA s.registry a = some e → e.record ≠ []
  bitOnTainted : ∀ a o e, lookupA s.objs a = some o → lookupA s.registry a = some e →
    e.objId = o.objId → o.attrs.isUnicode = true → o.attrs.interned = false →
    a ∈ s.fastBits
  noBitOnInterned : ∀ a o, lookupA s.objs a = some o → o.attrs.interned = true →
    a ∉ s.fastBits

theorem taintSet_inv (s : EngineState) (a : Nat) (rec : TaintRecord) (h : Inv s) :
    Inv (taintSet s a rec) := by
  unfold taintSet
  cases ho : lookupA s.objs a with
  | none => exact h
  | some o =>
    cases hi : o.attrs.interned with
    | true => simpa [hi] using h
    | false =>
      by_cases hrec : rec = []
      · simpa [hi, hrec] using h
      · simp only [hi, hrec, Bool.false_eq_true, if_false, ite_false]
        unfold set_fast_tainted_if_notinterned_unicode
        have ho' : lookupA ({ s with registry := insertA s.registry a ⟨o.objId, rec⟩ } :
            EngineState).objs a = some o := ho
        rw [ho']
        cases hu : o.attrs.isUnicode with
        | true =>
          simp only [hu, hi, Bool.not_false, Bool.and_self, if_true]
          refine ⟨?_, ?_, ?_, ?_, ?_⟩
          · intro b o' hb; exact h.objIdLt b o' hb
          · intro b e hb
            by_cases hab : b = a
            · subst hab
              rw [lookupA_insertA_self] at hb
              cases hb
              exact h.objIdLt b o ho
            · rw [lookupA_insertA_ne _ _ _ _ (Ne.symm hab)] at hb
              exact h.regIdLt b e hb
          · intro b e hb
            by_cases hab : b = a
            · subst hab
              rw [lookupA_insertA_self] at hb
              cases hb
              exact hrec
            · rw [lookupA_insertA_ne _ _ _ _ (Ne.symm hab)] at hb
              exact h.regNonempty b e hb
          · intro b o' e hb he heq hu' hi'
            by_cases hab : b = a
            · subst hab; exact List.mem_cons_self _ _
            · rw [lookupA_insertA_ne _ _ _ _ (Ne.symm hab)] at he
              exact List.mem_cons_of_mem a (h.bitOnTainted b o' e hb he heq hu' hi')
          · intro b o' hb hi' hmem
            by_cases hab : b = a
            · subst hab
              rw [ho] at hb; cases hb
              rw [hi] at hi'; cases hi'
            · rcases List.mem_cons.mp hmem with hba | hmem'
              · exact hab hba
              · exact h.noBitOnInterned b o' hb hi' hmem'
        | false =>
          simp only [hu, hi, Bool.false_and, if_false, Bool.false_eq_true]
          refine ⟨?_, ?_, ?_, ?_, ?_⟩
          · intro b o' hb; exact h.objIdLt b o' hb
          · intro b e hb
            by_cases hab : b = a
            · subst hab
              rw [lookupA_insertA_self] at hb
              cases hb
              exact h.objIdLt b o ho
            · rw [lookupA_insertA_ne _ _ _ _ (Ne.symm hab)] at hb
              exact h.regIdLt b e hb
          · intro b e hb
            by_cases hab : b = a
            · subst hab
              rw [lookupA_insertA_self] at hb
              cases hb
              exact hrec
            · rw [lookupA_insertA_ne _ _ _ _ (Ne.symm hab)] at hb
              exact h.regNonempty b e hb
          · intro b o' e hb he heq hu' hi'
            by_cases hab : b = a
            · subst hab
              rw [ho] at hb; cases hb
              rw [hu] at hu'; cases hu'
            · rw [lookupA_insertA_ne _ _ _ _ (Ne.symm hab)] at he
              exact h.bitOnTainted b o' e hb he heq hu' hi'
          · intro b o' hb hi'
            exact h.noBitOnInterned b o' hb hi'

theorem step_inv (s : EngineState) (e : Event) (h : Inv s) : Inv (step s e) := by
  cases e with
  | alloc a attrs =>
    refine ⟨?_, ?_, ?_, ?_, ?_⟩
    · intro b o hb
      simp only [step, allocObj] at hb ⊢
      by_cases hab : b = a
      · subst hab
        rw [lookupA_insertA_self] at hb
        cases hb
        exact Nat.lt_succ_self _
      · rw [lookupA_insertA_ne _ _ _ _ (Ne.symm hab)] at hb
        exact Nat.lt_succ_of_lt (h.objIdLt b o hb)
    · intro b e' hb
      simp only [step, allocObj] at hb ⊢
      exact Nat.lt_succ_of_lt (h.regIdLt b e' hb)
    · intro b e' hb
      simp only [step, allocObj] at hb
      exact h.regNonempty b e' hb
    · intro b o e' hb he heq hu hi
      simp only [step, allocObj] at hb he ⊢
      by_cases hab : b = a
      · subst hab
        rw [lookupA_insertA_self] at hb
        cases hb
        exact absurd heq (Nat.ne_of_lt (h.regIdLt b e' he))
      · rw [lookupA_insertA_ne _ _ _ _ (Ne.symm hab)] at hb
        exact (mem_filter_ne _ _ _).mpr ⟨h.bitOnTainted b o e' hb he heq hu hi, hab⟩
    · intro b o hb hi hmem
      simp only [step, allocObj] at hb hmem
      rcases (mem_filter_ne _ _ _).mp hmem with ⟨hmem', hab⟩
      rw [lookupA_insertA_ne _ _ _ _ (Ne.symm hab)] at hb
      exact h.noBitOnInterned b o hb hi hmem'
  | destroy a =>
    refine ⟨?_, ?_, ?_, ?_, ?_⟩
    · intro b o hb
      simp only [step, destroyObj, clearTaint] at hb ⊢
      by_cases hab : b = a
      · subst hab; rw [lookupA_eraseA_self] at hb; cases hb
      · rw [lookupA_eraseA_ne _ _ _ (Ne.symm hab)] at hb
        exact h.objIdLt b o hb
    · intro b e' hb
      simp only [step, destroyObj, clearTaint] at hb ⊢
      by_cases hab : b = a
      · subst hab; rw [lookupA_eraseA_self] at hb; cases hb
      · rw [lookupA_eraseA_ne _ _ _ (Ne.symm hab)] at hb
        exact h.regIdLt b e' hb
    · intro b e' hb
      simp only [step, destroyObj, clearTaint] at hb
      by_cases hab : b = a
      · subst hab; rw [lookupA_eraseA_self] at hb; cases hb
      · rw [lookupA_eraseA_ne _ _ _ (Ne.symm hab)] at hb
        exact h.regNonempty b e' hb
    · intro b o e' hb he heq hu hi
      simp only [step, destroyObj, clearTaint] at hb he ⊢
      by_cases hab : b = a
      · subst hab; rw [lookupA_eraseA_self] at hb; cases hb
      · rw [lookupA_eraseA_ne _ _ _ (Ne.symm hab)] at hb he
        exact (mem_filter_ne _ _ _).mpr ⟨h.bitOnTainted b o e' hb he heq hu hi, hab⟩
    · intro b o hb hi hmem
      simp only [step, destroyObj, clearTaint] at hb hmem
      rcases (mem_filter_ne _ _ _).mp hmem with ⟨hmem', hab⟩
      rw [lookupA_eraseA_ne _ _ _ (Ne.symm hab)] at hb
      exact h.noBitOnInterned b o hb hi hmem'
  | mark a t n => exact taintSet_inv s a _ h
  | clear a =>
    refine ⟨?_, ?_, ?_, ?_, ?_⟩
    · intro b o hb
      simp only [step, clearTaint] at hb ⊢
      exact h.objIdLt b o hb
    · intro b e' hb
      simp only [step, clearTaint] at hb ⊢
      by_cases hab : b = a
      · subst hab; rw [lookupA_eraseA_self] at hb; cases hb
      · rw [lookupA_eraseA_ne _ _ _ (Ne.symm hab)] at hb
        exact h.regIdLt b e' hb
    · intro b e' hb
      simp only [step, clearTaint] at hb
      by_cases hab : b = a
      · subst hab; rw [lookupA_eraseA_self] at hb; cases hb
      · rw [lookupA_eraseA_ne _ _ _ (Ne.symm hab)] at hb
        exact h.regNonempty b e' hb
    · intro b o e' hb he heq hu hi
      simp only [step, clearTaint] at hb he ⊢
      by_cases hab : b = a
      · subst hab; rw [lookupA_eraseA_self] at he; cases he
      · rw [lookupA_eraseA_ne _ _ _ (Ne.symm hab)] at he
        exact (mem_filter_ne _ _ _).mpr ⟨h.bitOnTainted b o e' hb he heq hu hi, hab⟩
    · intro b o hb hi hmem
      simp only [step, clearTaint] at hb hmem
      rcases (mem_filter_ne _ _ _).mp hmem with ⟨hmem', hab⟩
      exact h.noBitOnInterned b o hb hi hmem'
  | prop a r => exact taintSet_inv s a r h

theorem foldl_inv {P : EngineState → Prop}
    (hstep : ∀ s e, P s → P (step s e)) :
    ∀ (evs : List Event) (s : EngineState), P s → P (evs.foldl step s) := by
  intro evs
  induction evs with
  | nil => intro s hs; exact hs
  | cons e rest ih => intro s hs; exact ih _ (hstep s e hs)

theorem inv_initState : Inv initState := by
  refine ⟨?_, ?_, ?_, ?_, ?_⟩ <;> intro a <;> intros <;> simp_all [initState, lookupA]

theorem inv_run (evs : List Event) : Inv (run evs) :=
  foldl_inv step_inv evs initState inv_initState

/-! ## Equation lemmas for the engine operations -/

theorem query_taint_congr (s s' : EngineState) (addr : Nat)
    (h1 : lookupA s'.objs addr = lookupA s.objs addr)
    (h2 : lookupA s'.registry addr = lookupA s.registry addr) :
    query_taint s' addr = query_taint s addr := by
  unfold query_taint
  rw [h1, h2]

theorem query_taint_no_obj (s : EngineState) (addr : Nat)
    (ho : lookupA s.objs addr = none) : query_taint s addr = [] := by
  unfold query_taint
  rw [ho]

theorem query_taint_no_entry (s : EngineState) (addr : Nat) (o : LiveObj)
    (ho : lookupA s.objs addr = some o) (he : lookupA s.registry addr = none) :
    query_taint s addr = [] := by
  unfold query_taint
  rw [ho, he]

theorem query_taint_entry (s : EngineState) (addr : Nat) (o : LiveObj) (e : RegEntry)
    (ho : lookupA s.objs addr = some o) (he : lookupA s.registry addr = some e) :
    query_taint s addr = if e.objId = o.objId then e.record else [] := by
  unfold query_taint
  rw [ho, he]

theorem isDefinitelyUntainted_obj (s : EngineState) (addr : Nat) (o : LiveObj)
    (ho : lookupA s.objs addr = some o) :
    isDefinitelyUntainted s addr =
      is_notinterned_notfasttainted_unicode o.attrs (decide (addr ∈ s.fastBits)) := by
  unfold isDefinitelyUntainted
  rw [ho]

theorem set_fast_objs (s : EngineState) (a : Nat) :
    (set_fast_tainted_if_notinterned_unicode s a).objs = s.objs := by
  unfold set_fast_tainted_if_notinterned_unicode
  split
  · split <;> rfl
  · rfl

theorem set_fast_registry (s : EngineState) (a : Nat) :
    (set_fast_tainted_if_notinterned_unicode s a).registry = s.registry := by
  unfold set_fast_tainted_if_notinterned_unicode
  split
  · split <;> rfl
  · rfl

theorem taintSet_objs (s : EngineState) (a : Nat) (rec : TaintRecord) :
    (taintSet s a rec).objs = s.objs := by
  unfold taintSet
  split
  · rfl
  · split
    · rfl
    · split
      · rfl
      · rw [set_fast_objs]

theorem taintSet_registry_ne (s : EngineState) (a : Nat) (rec : TaintRecord)
    (b : Nat) (hne : a ≠ b) :
    lookupA (taintSet s a rec).registry b = lookupA s.registry b := by
  unfold taintSet
  split
  · rfl
  · split
    · rfl
    · split
      · rfl
      · rw [set_fast_registry]
        exact lookupA_insertA_ne _ _ _ _ hne

/-! ## Claims about the fast path, staleness and interning -/

/-- C1: in every reachable engine state, if the Taint Registry holds a
non-empty (valid) Taint Record for a handle, then the Fast-Taint Marker
query `is_definitely_untainted` (implemented by
`is_notinterned_notfasttainted_unicode`) answers false — it never claims
"no taint present" for a value the registry holds taint for. -/
theorem fast_marker_never_false_negative (evs : List Event) (addr : Nat)
    (hq : query_taint (run evs) addr ≠ []) :
    isDefinitelyUntainted (run evs) addr = false := by
  have hinv := inv_run evs
  cases ho : lookupA (run evs).objs addr with
  | none =>
    unfold isDefinitelyUntainted
    rw [ho]
  | some o =>
    cases he : lookupA (run evs).registry addr with
    | none => exact absurd (query_taint_no_entry _ _ _ ho he) hq
    | some e =>
      rw [query_taint_entry _ _ _ _ ho he] at hq
      by_cases hid : e.objId = o.objId
      · rw [isDefinitelyUntainted_obj _ _ _ ho]
        unfold is_notinterned_notfasttainted_unicode
        cases hu : o.attrs.isUnicode with
        | false => simp [hu]
        | true =>
          cases hi : o.attrs.interned with
          | true => simp [hi]
          | false => simp [decide_eq_true (hinv.bitOnTainted addr o e ho he hid hu hi)]
      · rw [if_neg hid] at hq
        exact absurd rfl hq

/-- Witness for C1: after allocating a non-interned unicode object at
address 0 and marking it tainted, the registry holds a non-empty record and
the fast query indeed answers false. -/
theorem fast_marker_never_false_negative_witness :
    query_taint (run [.alloc 0 ⟨true, false⟩, .mark 0 "X" 3]) 0 ≠ [] ∧
    isDefinitelyUntainted (run [.alloc 0 ⟨true, false⟩, .mark 0 "X" 3]) 0 = false :=
  ⟨by decide, fast_marker_never_false_negative [.alloc 0 ⟨true, false⟩, .mark 0 "X" 3] 0
    (by decide)⟩

/-- C2: stale-identity safety.  Whatever happened before (including tainting
the value at address `P`), once the value is destroyed and an unrelated
fresh value is allocated at the same address `P`, `query_taint` on the fresh
value returns the empty record.  Moreover, even when the destruction
notification is missed (bare address reuse), the generation check inside
`query_taint` invalidates the stale entry locally and still yields the empty
record; `query_taint` is a total function into `TaintRecord`, so staleness
is never surfaced as a hard failure. -/
theorem stale_identity_returns_empty (pre : List Event) (P : Nat) (attrs : PyObjAttrs) :
    query_taint (run (pre ++ [.destroy P, .alloc P attrs])) P = [] ∧
    query_taint (run (pre ++ [.alloc P attrs])) P = [] := by
  constructor
  · have hrun : run (pre ++ [.destroy P, .alloc P attrs]) =
        step (step (run pre) (.destroy P)) (.alloc P attrs) := by
      unfold run
      rw [List.foldl_append]
      rfl
    rw [hrun]
    refine query_taint_no_entry _ _ ⟨(step (run pre) (.destroy P)).nextId, attrs⟩ ?_ ?_
    · exact lookupA_insertA_self _ _ _
    · show lookupA (eraseA (run pre).registry P) P = none
      exact lookupA_eraseA_self _ _
  · have hrun : run (pre ++ [.alloc P attrs]) = step (run pre) (.alloc P attrs) := by
      unfold run
      rw [List.foldl_append]
      rfl
    rw [hrun]
    have hinv := inv_run pre
    have ho : lookupA (step (run pre) (.alloc P attrs)).objs P =
        some ⟨(run pre).nextId, attrs⟩ := lookupA_insertA_self _ _ _
    cases he : lookupA (step (run pre) (.alloc P attrs)).registry P with
    | none => exact query_taint_no_entry _ _ _ ho he
    | some e =>
      rw [query_taint_entry _ _ _ _ ho he]
      exact if_neg (Nat.ne_of_lt (hinv.regIdLt P e he))

/-- Modelled from the spec: `new_pyobject_id` (declared at StringUtils.h
lines 39-40, definition not under `src/`).  Per §4.2 and the design notes:
when the object is interned, hand back a fresh, non-interned copy with its
own identity (allocated at `newAddr`), so that taint is keyed to the copy
and never to the shared singleton; otherwise return the handle unchanged. -/
def new_pyobject_id (s : EngineState) (addr newAddr : Nat) : EngineState × Nat :=
  match lookupA s.objs addr with
  | some o =>
    if o.attrs.interned then (allocObj s newAddr ⟨o.attrs.isUnicode, false⟩, newAddr)
    else (s, addr)
  | none => (s, addr)

/-- Tainting through one call site's handle: the engine first substitutes a
fresh object id via `new_pyobject_id`, then marks the resulting handle. -/
def taint_with_fresh_id (s : EngineState) (addr newAddr : Nat)
    (tag : ProvenanceTag) (len : Nat) : EngineState :=
  mark_tainted (new_pyobject_id s addr newAddr).1 (new_pyobject_id s addr newAddr).2
    tag len

/-- C3: interned-value isolation.  When the classifier designates the value
at `addr` Interned and one call site taints it (the implementation
substituting a fresh object id via `new_pyobject_id`, at a distinct fresh
address `newAddr`), a taint query through the other call site's handle to
the shared instance is unchanged — in particular it still reports no
taint if there was none before. -/
theorem interned_taint_is_isolated (s : EngineState) (addr newAddr : Nat)
    (o : LiveObj) (tag : ProvenanceTag) (len : Nat)
    (ho : lookupA s.objs addr = some o) (hi : o.attrs.interned = true)
    (hne : newAddr ≠ addr) :
    query_taint (taint_with_fresh_id s addr newAddr tag len) addr =
      query_taint s addr := by
  have hpair : new_pyobject_id s addr newAddr =
      (allocObj s newAddr ⟨o.attrs.isUnicode, false⟩, newAddr) := by
    unfold new_pyobject_id
    rw [ho]
    simp [hi]
  unfold taint_with_fresh_id
  rw [hpair]
  unfold mark_tainted
  refine query_taint_congr _ _ _ ?_ ?_
  · rw [taintSet_objs]
    exact lookupA_insertA_ne _ _ _ _ hne
  · rw [taintSet_registry_ne _ _ _ _ hne]
    rfl

/-- Witness for C3: an interned one-object state; tainting through the
fresh-id path at address 5 leaves the query at address 0 empty. -/
theorem interned_taint_is_isolated_witness :
    query_taint
      (taint_with_fresh_id (run [.alloc 0 ⟨true, true⟩]) 0 5 "X" 4) 0 =
      query_taint (run [.alloc 0 ⟨true, true⟩]) 0 ∧
    query_taint (taint_with_fresh_id (run [.alloc 0 ⟨true, true⟩]) 0 5 "X" 4) 0 = [] := by
  have h := interned_taint_is_isolated (run [.alloc 0 ⟨true, true⟩]) 0 5
    ⟨0, ⟨true, true⟩⟩ "X" 4 (by decide) rfl (by decide)
  refine ⟨h, ?_⟩
  rw [h]
  decide

/-- C4: the fast-taint marking operation never sets the bit on an interned
value: applying `set_fast_tainted_if_notinterned_unicode` to a handle whose
object is interned leaves the state unchanged, and in every reachable
engine state no live interned object carries the fast-taint bit. -/
theorem fast_bit_never_set_on_interned :
    (∀ (s : EngineState) (addr : Nat) (o : LiveObj),
      lookupA s.objs addr = some o → o.attrs.interned = true →
      set_fast_tainted_if_notinterned_unicode s addr = s) ∧
    (∀ (evs : List Event) (addr : Nat) (o : LiveObj),
      lookupA (run evs).objs addr = some o → o.attrs.interned = true →
      addr ∉ (run evs).fastBits) := by
  constructor
  · intro s addr o ho hi
    unfold set_fast_tainted_if_notinterned_unicode
    rw [ho]
    simp [hi]
  · intro evs addr o ho hi
    exact (inv_run evs).noBitOnInterned addr o ho hi

/-- Witness for C4: an interned unicode object at address 2; the marking
operation is the identity on the state, and the bit stays unset even after
an attempted `mark` of that address. -/
theorem fast_bit_never_set_on_interned_witness :
    set_fast_tainted_if_notinterned_unicode (run [.alloc 2 ⟨true, true⟩]) 2 =
      run [.alloc 2 ⟨true, true⟩] ∧
    2 ∉ (run [.alloc 2 ⟨true, true⟩, .mark 2 "X" 3]).fastBits :=
  ⟨fast_bit_never_set_on_interned.1 (run [.alloc 2 ⟨true, true⟩]) 2 ⟨0, ⟨true, true⟩⟩
      (by decide) rfl,
    fast_bit_never_set_on_interned.2 [.alloc 2 ⟨true, true⟩, .mark 2 "X" 3] 2
      ⟨0, ⟨true, true⟩⟩ (by decide) rfl⟩

/-! ## C5: untainted values -/

/-- C5 counterexample: an interned unicode value that was never passed to
`mark_tainted` and never produced from tainted operands.  `query_taint`
returns the empty record, but `is_definitely_untainted` (the
`is_notinterned_notfasttainted_unicode` fast query) returns false, not true:
the fast path conservatively rejects interned values.  The claim's second
half is therefore false as universally stated. -/
theorem untainted_fast_query_counterexample :
    query_taint (run [.alloc 0 ⟨true, true⟩]) 0 = [] ∧
    isDefinitelyUntainted (run [.alloc 0 ⟨true, true⟩]) 0 = false := by
  decide

/-- Whether an event writes taint to `addr`: a `mark` of `addr`, or a
propagation to `addr` whose computed record is non-empty (the result of an
operation with tainted operands). -/
def taintsAddr (e : Event) (addr : Nat) : Bool :=
  match e with
  | .mark a _ _ => a == addr
  | .prop a rec => a == addr && !(decide (rec = []))
  | _ => false

theorem taintSet_nil (s : EngineState) (a : Nat) : taintSet s a [] = s := by
  unfold taintSet
  split
  · rfl
  · split
    · rfl
    · rw [if_pos rfl]

theorem set_fast_fastBits_mem (s : EngineState) (a b : Nat) (hb : b ≠ a) :
    b ∈ (set_fast_tainted_if_notinterned_unicode s a).fastBits ↔ b ∈ s.fastBits := by
  unfold set_fast_tainted_if_notinterned_unicode
  split
  · split
    · simp [List.mem_cons, hb]
    · exact Iff.rfl
  · exact Iff.rfl

theorem taintSet_fastBits_mem (s : EngineState) (a : Nat) (rec : TaintRecord)
    (b : Nat) (hb : b ≠ a) :
    b ∈ (taintSet s a rec).fastBits ↔ b ∈ s.fastBits := by
  unfold taintSet
  split
  · exact Iff.rfl
  · split
    · exact Iff.rfl
    · split
      · exact Iff.rfl
      · exact set_fast_fastBits_mem _ _ _ hb

theorem step_preserves_untainted (s : EngineState) (e : Event) (addr : Nat)
    (hne : taintsAddr e addr = false)
    (h1 : lookupA s.registry addr = none) (h2 : addr ∉ s.fastBits) :
    lookupA (step s e).registry addr = none ∧ addr ∉ (step s e).fastBits := by
  cases e with
  | alloc a attrs =>
    refine ⟨h1, fun hmem => h2 ((mem_filter_ne _ _ _).mp hmem).1⟩
  | destroy a =>
    constructor
    · by_cases hab : a = addr
      · subst hab; exact lookupA_eraseA_self _ _
      · show lookupA (eraseA s.registry a) addr = none
        rw [lookupA_eraseA_ne _ _ _ hab]; exact h1
    · exact fun hmem => h2 ((mem_filter_ne _ _ _).mp hmem).1
  | clear a =>
    constructor
    · by_cases hab : a = addr
      · subst hab; exact lookupA_eraseA_self _ _
      · show lookupA (eraseA s.registry a) addr = none
        rw [lookupA_eraseA_ne _ _ _ hab]; exact h1
    · exact fun hmem => h2 ((mem_filter_ne _ _ _).mp hmem).1
  | mark a t n =>
    have hab : a ≠ addr := by simpa [taintsAddr] using hne
    constructor
    · show lookupA (taintSet s a _).registry addr = none
      rw [taintSet_registry_ne _ _ _ _ hab]; exact h1
    · exact fun hmem => h2 ((taintSet_fastBits_mem _ _ _ _ (Ne.symm hab)).mp hmem)
  | prop a rec =>
    by_cases hab : a = addr
    · subst hab
      have hrec : rec = [] := by simpa [taintsAddr] using hne
      subst hrec
      show lookupA (taintSet s a []).registry a = none ∧ a ∉ (taintSet s a []).fastBits
      rw [taintSet_nil]
      exact ⟨h1, h2⟩
    · constructor
      · show lookupA (taintSet s a _).registry addr = none
        rw [taintSet_registry_ne _ _ _ _ hab]; exact h1
      · exact fun hmem => h2 ((taintSet_fastBits_mem _ _ _ _ (Ne.symm hab)).mp hmem)

/-- C5 (amended): for every value never passed to `mark_tainted` and never
the target of a propagation with a non-empty record, `query_taint` returns
the empty record; and `is_definitely_untainted` returns true provided the
value is a non-interned unicode object (for interned or non-unicode values
the fast query conservatively answers false, see the counterexample). -/
theorem never_tainted_queries_empty (evs : List Event) (addr : Nat) (o : LiveObj)
    (hnever : ∀ e ∈ evs, taintsAddr e addr = false)
    (ho : lookupA (run evs).objs addr = some o) :
    query_taint (run evs) addr = [] ∧
    (o.attrs.isUnicode = true → o.attrs.interned = false →
      isDefinitelyUntainted (run evs) addr = true) := by
  have key : ∀ (l : List Event) (s : EngineState),
      (∀ e ∈ l, taintsAddr e addr = false) →
      lookupA s.registry addr = none → addr ∉ s.fastBits →
      lookupA (l.foldl step s).registry addr = none ∧
        addr ∉ (l.foldl step s).fastBits := by
    intro l
    induction l with
    | nil => exact fun s _ h1 h2 => ⟨h1, h2⟩
    | cons e rest ih =>
      intro s hl h1 h2
      have hstep := step_preserves_untainted s e addr (hl e (List.mem_cons_self _ _)) h1 h2
      exact ih (step s e) (fun e' he' => hl e' (List.mem_cons_of_mem _ he')) hstep.1 hstep.2
  have hkey := key evs initState hnever rfl (by simp [initState])
  constructor
  · exact query_taint_no_entry _ _ _ ho hkey.1
  · intro hu hi
    rw [isDefinitelyUntainted_obj _ _ _ ho]
    unfold is_notinterned_notfasttainted_unicode
    simp [hu, hi, decide_eq_false (show addr ∉ (run evs).fastBits from hkey.2)]

/-- Witness for C5 (amended): address 0 holds a non-interned unicode object,
never tainted; another address is tainted in the same trace. -/
theorem never_tainted_queries_empty_witness :
    query_taint (run [.alloc 0 ⟨true, false⟩, .alloc 1 ⟨true, false⟩, .mark 1 "Y" 2]) 0
      = [] ∧
    isDefinitelyUntainted
      (run [.alloc 0 ⟨true, false⟩, .alloc 1 ⟨true, false⟩, .mark 1 "Y" 2]) 0 = true := by
  have h := never_tainted_queries_empty
    [.alloc 0 ⟨true, false⟩, .alloc 1 ⟨true, false⟩, .mark 1 "Y" 2] 0
    ⟨0, ⟨true, false⟩⟩ (by decide) (by decide)
  exact ⟨h.1, h.2 rfl rfl⟩

/-! ## Range Algebra (modelled from the spec, §4.5: the algebra functions
are pure and total; the registry write is a separate caller step) -/

/-- Shift a range by `n` positions (into the right-hand part of a
concatenation result). -/
def shiftRange (n : Nat) (r : TaintRange) : TaintRange :=
  ⟨r.start + n, r.stop + n, r.source⟩

/-- Modelled from the spec: Concatenation(left, right) (§4.5) — the result
is left's ranges unchanged followed by right's ranges shifted by
`len(left)`. -/
def concatRanges (left right : TaintRecord) (leftLen : Nat) : TaintRecord :=
  left ++ right.map (shiftRange leftLen)

theorem query_after_taintSet (s : EngineState) (a : Nat) (o : LiveObj)
    (rec : TaintRecord) (ho : lookupA s.objs a = some o)
    (hi : o.attrs.interned = false) (hrec : rec ≠ []) :
    query_taint (taintSet s a rec) a = rec := by
  have hobjs : (taintSet s a rec).objs = s.objs := taintSet_objs s a rec
  have hreg : lookupA (taintSet s a rec).registry a = some ⟨o.objId, rec⟩ := by
    unfold taintSet
    rw [ho]
    simp only [hi, Bool.false_eq_true, if_false, hrec, ite_false]
    rw [set_fast_registry]
    exact lookupA_insertA_self _ _ _
  rw [query_taint_entry _ _ o _ (by rw [hobjs]; exact ho) hreg]
  exact if_pos rfl

/-- C6: the concatenation algebra keeps left's ranges unchanged and shifts
right's ranges by `len(left)`; and the round trip through the engine: mark
`a` fully tainted with source `X`, concatenate with an untainted `b`, store
the result on `c` — querying `c` yields exactly the single range
`[0, len(a))` with source `X`. -/
theorem concat_ranges_correct :
    (∀ (left right : TaintRecord) (leftLen : Nat),
      concatRanges left right leftLen = left ++ right.map (shiftRange leftLen)) ∧
    (∀ (evs : List Event) (a b c : Nat) (o oc : LiveObj) (tag : ProvenanceTag)
      (la : Nat),
      lookupA (run evs).objs a = some o → o.attrs.interned = false →
      lookupA (run evs).objs c = some oc → oc.attrs.interned = false →
      query_taint (step (run evs) (.mark a tag la)) b = [] →
      query_taint
        (step (step (run evs) (.mark a tag la))
          (.prop c
            (concatRanges (query_taint (step (run evs) (.mark a tag la)) a)
              (query_taint (step (run evs) (.mark a tag la)) b) la))) c =
        [⟨0, la, tag⟩]) := by
  constructor
  · intro left right leftLen
    rfl
  · intro evs a b c o oc tag la ho hi hoc hic hb
    have hqa : query_taint (step (run evs) (.mark a tag la)) a = [⟨0, la, tag⟩] :=
      query_after_taintSet (run evs) a o _ ho hi (by simp)
    have hrec : concatRanges (query_taint (step (run evs) (.mark a tag la)) a)
        (query_taint (step (run evs) (.mark a tag la)) b) la = [⟨0, la, tag⟩] := by
      rw [hqa, hb]
      rfl
    rw [hrec]
    have hoc' : lookupA (step (run evs) (.mark a tag la)).objs c = some oc := by
      show lookupA (taintSet (run evs) a _).objs c = some oc
      rw [taintSet_objs]
      exact hoc
    exact query_after_taintSet _ c oc _ hoc' hic (by simp)

/-- Witness for C6: a two-character value at address 0 marked with "X",
concatenated with the untainted value at address 1, result stored at 2. -/
theorem concat_ranges_correct_witness :
    query_taint
      (step (step (run [.alloc 0 ⟨true, false⟩, .alloc 1 ⟨true, false⟩,
            .alloc 2 ⟨true, false⟩]) (.mark 0 "X" 2))
        (.prop 2
          (concatRanges
            (query_taint (step (run [.alloc 0 ⟨true, false⟩, .alloc 1 ⟨true, false⟩,
              .alloc 2 ⟨true, false⟩]) (.mark 0 "X" 2)) 0)
            (query_taint (step (run [.alloc 0 ⟨true, false⟩, .alloc 1 ⟨true, false⟩,
              .alloc 2 ⟨true, false⟩]) (.mark 0 "X" 2)) 1) 2))) 2 =
      [⟨0, 2, "X"⟩] :=
  concat_ranges_correct.2 [.alloc 0 ⟨true, false⟩, .alloc 1 ⟨true, false⟩,
    .alloc 2 ⟨true, false⟩] 0 1 2 ⟨0, ⟨true, false⟩⟩ ⟨2, ⟨true, false⟩⟩ "X" 2
    (by decide) rfl (by decide) rfl (by decide)

/-- Modelled from the spec: Slice(source, start, end) (§4.5) — each range
`[a,b)` is clipped to `[max(a,start), min(b,end))`, kept only if non-empty,
re-based by subtracting `start`, and keeps its source tag. -/
def sliceRanges (src : TaintRecord) (start stop : Nat) : TaintRecord :=
  src.filterMap (fun r =>
    if max r.start start < min r.stop stop then
      some ⟨max r.start start - start, min r.stop stop - start, r.source⟩
    else none)

/-- C7: the slice algebra clips each source range to the slice bounds,
keeps it only when the clipped range is non-empty, re-bases it by
subtracting `start` and preserves the source tag; slicing a fully tainted
value of length 10 with bounds `[2:5]` yields exactly `[0,3)` with the
original source, also through the engine (`query_taint` on the stored
propagation result). -/
theorem slice_ranges_correct :
    (∀ (src : TaintRecord) (st en : Nat) (r' : TaintRange),
      r' ∈ sliceRanges src st en ↔
        ∃ r ∈ src, max r.start st < min r.stop en ∧
          r' = ⟨max r.start st - st, min r.stop en - st, r.source⟩) ∧
    sliceRanges [⟨0, 10, "S"⟩] 2 5 = [⟨0, 3, "S"⟩] ∧
    query_taint
      (step (run [.alloc 0 ⟨true, false⟩, .alloc 1 ⟨true, false⟩, .mark 0 "S" 10])
        (.prop 1
          (sliceRanges
            (query_taint
              (run [.alloc 0 ⟨true, false⟩, .alloc 1 ⟨true, false⟩, .mark 0 "S" 10]) 0)
            2 5))) 1 = [⟨0, 3, "S"⟩] := by
  refine ⟨?_, by decide, by decide⟩
  intro src st en r'
  simp only [sliceRanges, List.mem_filterMap]
  constructor
  · rintro ⟨r, hr, hf⟩
    by_cases hc : max r.start st < min r.stop en
    · rw [if_pos hc] at hf
      exact ⟨r, hr, hc, (Option.some.injEq _ _ ▸ hf).symm⟩
    · rw [if_neg hc] at hf
      cases hf
  · rintro ⟨r, hr, hc, rfl⟩
    exact ⟨r, hr, by rw [if_pos hc]⟩

/-- Witness for C7: membership in the slice of the fully tainted length-10
value with bounds `[2:5]`, via the characterization at the concrete range. -/
theorem slice_ranges_correct_witness :
    (⟨0, 3, "S"⟩ : TaintRange) ∈ sliceRanges [⟨0, 10, "S"⟩] 2 5 :=
  (slice_ranges_correct.1 [⟨0, 10, "S"⟩] 2 5 ⟨0, 3, "S"⟩).mpr
    ⟨⟨0, 10, "S"⟩, by decide, by decide, by decide⟩

/-! ## Replace/Substitute (modelled from the spec, §4.5) -/

/-- A matched span `[start, stop)` in the source's index space. -/
structure MatchSpan where
  start : Nat
  stop : Nat
deriving DecidableEq

/-- Length of a matched span. -/
def spanLen (m : MatchSpan) : Nat :=
  m.stop - m.start

/-- The replacement record's own ranges inserted at a substitution site:
each range of the replacement text shifted to the post-substitution
offset `site`. -/
def insertReplAt (repl : TaintRecord) (site : Nat) : TaintRecord :=
  repl.map (fun q => ⟨site + q.start, site + q.stop, q.source⟩)

/-- Modelled from the spec: Replace/Substitute (§4.5).  Walks the source's
ranges and the matched spans left to right; `sub` is the total matched
length consumed so far and `add` the total replacement length emitted so
far, so a source position `p` past the processed matches maps to
`p + add - sub`.  Ranges inside a matched span are dropped (a range
overlapping a span at all is dropped — the spec defines behaviour only for
fully-inside and fully-outside ranges); ranges outside are re-based by the
cumulative delta; the replacement record's ranges are inserted at each
substitution site. -/
def replaceGo (repl : TaintRecord) (replLen : Nat) :
    List TaintRange → List MatchSpan → Nat → Nat → TaintRecord
  | [], [], _, _ => []
  | [], m :: ms, sub, add =>
    insertReplAt repl (m.start + add - sub) ++
      replaceGo repl replLen [] ms (sub + spanLen m) (add + replLen)
  | r :: src, [], sub, add =>
    ⟨r.start + add - sub, r.stop + add - sub, r.source⟩ ::
      replaceGo repl replLen src [] sub add
  | r :: src, m :: ms, sub, add =>
    if m.stop ≤ r.start then
      insertReplAt repl (m.start + add - sub) ++
        replaceGo repl replLen (r :: src) ms (sub + spanLen m) (add + replLen)
    else if r.stop ≤ m.start then
      ⟨r.start + add - sub, r.stop + add - sub, r.source⟩ ::
        replaceGo repl replLen src (m :: ms) sub add
    else
      replaceGo repl replLen src (m :: ms) sub add
termination_by src ms _ _ => src.length + ms.length

/-- The Replace range-algebra function. -/
def replaceRanges (src : TaintRecord) (ms : List MatchSpan) (repl : TaintRecord)
    (replLen : Nat) : TaintRecord :=
  replaceGo repl replLen src ms 0 0

/-- The length of the replacement result: the source length plus one
replacement length per match, minus the total matched length. -/
def replaceResultLen (srcLen : Nat) (ms : List MatchSpan) (replLen : Nat) : Nat :=
  srcLen + ms.length * replLen - (ms.map spanLen).sum

/-- Ranges in ascending, non-overlapping order (each stops before the next
starts) — the Taint Record data-model invariant. -/
def SepRanges (l : TaintRecord) : Prop :=
  l.Pairwise (fun u v => u.stop ≤ v.start)

/-- Every range is non-empty and contained in `[0, len)`. -/
def ProperRanges (l : TaintRecord) (len : Nat) : Prop :=
  ∀ r ∈ l, r.start < r.stop ∧ r.stop ≤ len

/-- Matched spans in ascending, non-overlapping order. -/
def SepSpans (l : List MatchSpan) : Prop :=
  l.Pairwise (fun u v => u.stop ≤ v.start)

/-- Every span is well-formed (possibly empty) and within `[0, len]`. -/
def ProperSpans (l : List MatchSpan) (len : Nat) : Prop :=
  ∀ m ∈ l, m.start ≤ m.stop ∧ m.stop ≤ len

/-- Disjoint spans all lying in `[lo, srcLen]` have total length at most
`srcLen - lo`. -/
theorem spans_sum_le :
    ∀ (ms : List MatchSpan) (lo srcLen : Nat), SepSpans ms →
      (∀ m ∈ ms, lo ≤ m.start ∧ m.start ≤ m.stop ∧ m.stop ≤ srcLen) →
      lo ≤ srcLen → lo + (ms.map spanLen).sum ≤ srcLen := by
  intro ms
  induction ms with
  | nil => intro lo srcLen _ _ hlo; simpa using hlo
  | cons m rest ih =>
    intro lo srcLen hsep hp hlo
    obtain ⟨h1, h2, h3⟩ := hp m (List.mem_cons_self _ _)
    have hsep' := (List.pairwise_cons.mp hsep).2
    have hhead := (List.pairwise_cons.mp hsep).1
    have ihres := ih m.stop srcLen hsep'
      (fun b hb => ⟨hhead b hb, (hp b (List.mem_cons_of_mem _ hb)).2⟩) h3
    simp only [List.map_cons, List.sum_cons, spanLen]
    omega

/-- The inserted replacement-block ranges sit inside
`[site, site + replLen)` and inherit the replacement record's order. -/
theorem insertReplAt_facts (repl : TaintRecord) (replLen : Nat)
    (hrsep : SepRanges repl) (hrprop : ProperRanges repl replLen) (site : Nat) :
    (∀ x ∈ insertReplAt repl site,
      site ≤ x.start ∧ x.start < x.stop ∧ x.stop ≤ site + replLen) ∧
    SepRanges (insertReplAt repl site) := by
  constructor
  · intro x hx
    simp only [insertReplAt, List.mem_map] at hx
    obtain ⟨q, hq, rfl⟩ := hx
    obtain ⟨h1, h2⟩ := hrprop q hq
    exact ⟨Nat.le_add_right _ _, Nat.add_lt_add_left h1 _, Nat.add_le_add_left h2 _⟩
  · unfold SepRanges insertReplAt
    rw [List.pairwise_map]
    exact List.Pairwise.imp (fun h => Nat.add_le_add_left h _) hrsep

/-- Main well-formedness lemma for the Replace walk: given separated,
in-bounds source ranges and matched spans all at or past `lo`, with `sub`
(consumed matched length) at most `lo`, every output range sits at or past
the image of `lo`, is non-empty, and stops within the image of the source
length; and the output is separated. -/
theorem replaceGo_wf (repl : TaintRecord) (replLen : Nat)
    (hrsep : SepRanges repl) (hrprop : ProperRanges repl replLen) :
    ∀ (n : Nat) (src : List TaintRange) (ms : List MatchSpan)
      (sub add lo srcLen : Nat),
      src.length + ms.length ≤ n →
      SepRanges src → SepSpans ms →
      (∀ r ∈ src, lo ≤ r.start ∧ r.start < r.stop ∧ r.stop ≤ srcLen) →
      (∀ m ∈ ms, lo ≤ m.start ∧ m.start ≤ m.stop ∧ m.stop ≤ srcLen) →
      sub ≤ lo → lo ≤ srcLen →
      (∀ x ∈ replaceGo repl replLen src ms sub add,
        lo + add - sub ≤ x.start ∧ x.start < x.stop ∧
          x.stop ≤ srcLen + add + ms.length * replLen - (sub + (ms.map spanLen).sum)) ∧
      SepRanges (replaceGo repl replLen src ms sub add) := by
  intro n
  induction n with
  | zero =>
    intro src ms sub add lo srcLen hlen _ _ _ _ _ _
    have hsrc : src = [] := List.length_eq_zero.mp (by omega)
    have hms : ms = [] := List.length_eq_zero.mp (by omega)
    subst hsrc; subst hms
    rw [show replaceGo repl replLen [] [] sub add = [] by simp [replaceGo]]
    exact ⟨fun x hx => absurd hx (List.not_mem_nil x), List.Pairwise.nil⟩
  | succ n ih =>
    intro src ms sub add lo srcLen hlen hsep hmsep hsrcb hmsb hsublo hlosrc
    cases src with
    | nil =>
      cases ms with
      | nil =>
        rw [show replaceGo repl replLen [] [] sub add = [] by simp [replaceGo]]
        exact ⟨fun x hx => absurd hx (List.not_mem_nil x), List.Pairwise.nil⟩
      | cons m ms' =>
        obtain ⟨hm1, hm2, hm3⟩ := hmsb m (List.mem_cons_self _ _)
        have hmsep' := (List.pairwise_cons.mp hmsep).2
        have hmhead := (List.pairwise_cons.mp hmsep).1
        have hmb' : ∀ b ∈ ms', m.stop ≤ b.start ∧ b.start ≤ b.stop ∧ b.stop ≤ srcLen :=
          fun b hb => ⟨hmhead b hb, (hmsb b (List.mem_cons_of_mem _ hb)).2⟩
        have hsl : spanLen m = m.stop - m.start := rfl
        have hrec := ih [] ms' (sub + spanLen m) (add + replLen) m.stop srcLen
          (by simp only [List.length_nil, List.length_cons] at hlen ⊢; omega)
          List.Pairwise.nil hmsep' (fun r hr => absurd hr (List.not_mem_nil r))
          hmb' (by omega) hm3
        have hins := insertReplAt_facts repl replLen hrsep hrprop (m.start + add - sub)
        have hsum := spans_sum_le ms' m.stop srcLen hmsep' hmb' hm3
        rw [show replaceGo repl replLen [] (m :: ms') sub add =
            insertReplAt repl (m.start + add - sub) ++
              replaceGo repl replLen [] ms' (sub + spanLen m) (add + replLen) by
          simp [replaceGo]]
        constructor
        · intro x hx
          simp only [List.length_cons, List.map_cons, List.sum_cons, Nat.add_mul,
            Nat.one_mul]
          rcases List.mem_append.mp hx with hx | hx
          · obtain ⟨i1, i2, i3⟩ := hins.1 x hx
            exact ⟨by omega, i2, by omega⟩
          · obtain ⟨i1, i2, i3⟩ := hrec.1 x hx
            exact ⟨by omega, i2, by omega⟩
        · show List.Pairwise _ _
          refine List.pairwise_append.mpr ⟨hins.2, hrec.2, ?_⟩
          intro x hx y hy
          obtain ⟨i1, i2, i3⟩ := hins.1 x hx
          have j1 := (hrec.1 y hy).1
          omega
    | cons r src' =>
      obtain ⟨hr1, hr2, hr3⟩ := hsrcb r (List.mem_cons_self _ _)
      have hsep' := (List.pairwise_cons.mp hsep).2
      have hshead := (List.pairwise_cons.mp hsep).1
      cases ms with
      | nil =>
        have hrec := ih src' [] sub add r.stop srcLen
          (by simp only [List.length_nil, List.length_cons] at hlen ⊢; omega)
          hsep' List.Pairwise.nil
          (fun x hx => ⟨hshead x hx, (hsrcb x (List.mem_cons_of_mem _ hx)).2⟩)
          (fun b hb => absurd hb (List.not_mem_nil b))
          (by omega) hr3
        rw [show replaceGo repl replLen (r :: src') [] sub add =
            ⟨r.start + add - sub, r.stop + add - sub, r.source⟩ ::
              replaceGo repl replLen src' [] sub add by simp [replaceGo]]
        constructor
        · intro x hx
          rcases List.mem_cons.mp hx with rfl | hx
          · refine ⟨?_, ?_, ?_⟩
            · show lo + add - sub ≤ r.start + add - sub
              omega
            · show r.start + add - sub < r.stop + add - sub
              omega
            · show r.stop + add - sub ≤
                srcLen + add + List.length [] * replLen - (sub + (List.map spanLen []).sum)
              simp only [List.length_nil, List.map_nil, List.sum_nil]
              omega
          · obtain ⟨j1, j2, j3⟩ := hrec.1 x hx
            exact ⟨by omega, j2, j3⟩
        · show List.Pairwise _ _
          refine List.pairwise_cons.mpr ⟨?_, hrec.2⟩
          intro y hy
          exact (hrec.1 y hy).1
      | cons m ms' =>
        obtain ⟨hm1, hm2, hm3⟩ := hmsb m (List.mem_cons_self _ _)
        have hmsep' := (List.pairwise_cons.mp hmsep).2
        have hmhead := (List.pairwise_cons.mp hmsep).1
        have hmb' : ∀ b ∈ ms', m.stop ≤ b.start ∧ b.start ≤ b.stop ∧ b.stop ≤ srcLen :=
          fun b hb => ⟨hmhead b hb, (hmsb b (List.mem_cons_of_mem _ hb)).2⟩
        have hsl : spanLen m = m.stop - m.start := rfl
        by_cases h1 : m.stop ≤ r.start
        · have hrec := ih (r :: src') ms' (sub + spanLen m) (add + replLen) m.stop srcLen
            (by simp only [List.length_cons] at hlen ⊢; omega)
            hsep hmsep'
            (by
              intro x hx
              rcases List.mem_cons.mp hx with rfl | hx
              · exact ⟨h1, hr2, hr3⟩
              · have h := hsrcb x (List.mem_cons_of_mem _ hx)
                have h' := hshead x hx
                exact ⟨by omega, h.2.1, h.2.2⟩)
            hmb' (by omega) hm3
          have hins := insertReplAt_facts repl replLen hrsep hrprop (m.start + add - sub)
          have hsum := spans_sum_le ms' m.stop srcLen hmsep' hmb' hm3
          rw [show replaceGo repl replLen (r :: src') (m :: ms') sub add =
              insertReplAt repl (m.start + add - sub) ++
                replaceGo repl replLen (r :: src') ms' (sub + spanLen m)
                  (add + replLen) by simp [replaceGo, h1]]
          constructor
          · intro x hx
            simp only [List.length_cons, List.map_cons, List.sum_cons, Nat.add_mul,
              Nat.one_mul]
            rcases List.mem_append.mp hx with hx | hx
            · obtain ⟨i1, i2, i3⟩ := hins.1 x hx
              exact ⟨by omega, i2, by omega⟩
            · obtain ⟨i1, i2, i3⟩ := hrec.1 x hx
              exact ⟨by omega, i2, by omega⟩
          · show List.Pairwise _ _
            refine List.pairwise_append.mpr ⟨hins.2, hrec.2, ?_⟩
            intro x hx y hy
            obtain ⟨i1, i2, i3⟩ := hins.1 x hx
            have j1 := (hrec.1 y hy).1
            omega
        · by_cases h2 : r.stop ≤ m.start
          · have hmb'' : ∀ b ∈ m :: ms',
                r.stop ≤ b.start ∧ b.start ≤ b.stop ∧ b.stop ≤ srcLen := by
              intro b hb
              rcases List.mem_cons.mp hb with rfl | hb
              · exact ⟨h2, hm2, hm3⟩
              · have h := hmsb b (List.mem_cons_of_mem _ hb)
                have h' := hmhead b hb
                exact ⟨by omega, h.2.1, h.2.2⟩
            have hrec := ih src' (m :: ms') sub add r.stop srcLen
              (by simp only [List.length_cons] at hlen ⊢; omega)
              hsep' hmsep
              (fun x hx => ⟨hshead x hx, (hsrcb x (List.mem_cons_of_mem _ hx)).2⟩)
              hmb'' (by omega) hr3
            have hsum := spans_sum_le (m :: ms') r.stop srcLen hmsep hmb'' hr3
            rw [show replaceGo repl replLen (r :: src') (m :: ms') sub add =
                ⟨r.start + add - sub, r.stop + add - sub, r.source⟩ ::
                  replaceGo repl replLen src' (m :: ms') sub add by
              simp [replaceGo, h1, h2]]
            constructor
            · intro x hx
              rcases List.mem_cons.mp hx with rfl | hx
              · refine ⟨?_, ?_, ?_⟩
                · show lo + add - sub ≤ r.start + add - sub
                  omega
                · show r.start + add - sub < r.stop + add - sub
                  omega
                · show r.stop + add - sub ≤ srcLen + add +
                    List.length (m :: ms') * replLen -
                      (sub + (List.map spanLen (m :: ms')).sum)
                  simp only [List.length_cons, List.map_cons, List.sum_cons,
                    Nat.add_mul, Nat.one_mul] at hsum ⊢
                  omega
              · obtain ⟨j1, j2, j3⟩ := hrec.1 x hx
                exact ⟨by omega, j2, j3⟩
            · show List.Pairwise _ _
              refine List.pairwise_cons.mpr ⟨?_, hrec.2⟩
              intro y hy
              exact (hrec.1 y hy).1
          · have hrec := ih src' (m :: ms') sub add lo srcLen
              (by simp only [List.length_cons] at hlen ⊢; omega)
              hsep' hmsep
              (fun x hx => hsrcb x (List.mem_cons_of_mem _ hx))
              hmsb hsublo hlosrc
            rw [show replaceGo repl replLen (r :: src') (m :: ms') sub add =
                replaceGo repl replLen src' (m :: ms') sub add by
              simp [replaceGo, h1, h2]]
            exact hrec

/-- C8: for every Replace/Substitute operation on well-formed operands
(source record, matched spans and replacement record each separated and
within their bounds, per the Taint Record data-model invariant), the
resulting record's ranges are pairwise non-overlapping (each stops at or
before the next starts), each non-empty and contained in
`[0, result_length)`, and in ascending order of start. -/
theorem replace_ranges_invariants (src : TaintRecord) (ms : List MatchSpan)
    (repl : TaintRecord) (replLen srcLen : Nat)
    (hsep : SepRanges src) (hprop : ProperRanges src srcLen)
    (hmsep : SepSpans ms) (hmprop : ProperSpans ms srcLen)
    (hrsep : SepRanges repl) (hrprop : ProperRanges repl replLen) :
    SepRanges (replaceRanges src ms repl replLen) ∧
    ProperRanges (replaceRanges src ms repl replLen)
      (replaceResultLen srcLen ms replLen) ∧
    (replaceRanges src ms repl replLen).Pairwise (fun u v => u.start < v.start) := by
  have h := replaceGo_wf repl replLen hrsep hrprop (src.length + ms.length)
    src ms 0 0 0 srcLen le_rfl hsep hmsep
    (fun r hr => ⟨Nat.zero_le _, (hprop r hr).1, (hprop r hr).2⟩)
    (fun m hm => ⟨Nat.zero_le _, (hmprop m hm).1, (hmprop m hm).2⟩)
    le_rfl (Nat.zero_le _)
  refine ⟨h.2, ?_, ?_⟩
  · intro x hx
    obtain ⟨j1, j2, j3⟩ := h.1 x hx
    refine ⟨j2, ?_⟩
    unfold replaceResultLen
    omega
  · exact List.Pairwise.imp_of_mem
      (fun ha hb hR => Nat.lt_of_lt_of_le (h.1 _ ha).2.1 hR) h.2

/-- Witness for C8 at a concrete Replace: source of length 9 with ranges
`[0,2)` ("A") and `[7,9)` ("B") and a tainted range `[3,5)` inside the
matched span `[3,6)`, replaced by one-character text whose own record is
`[0,1)` ("R"): the dropped inside-range disappears, the suffix shifts left
by 2, the replacement range lands at the substitution site. -/
theorem replace_ranges_invariants_witness :
    SepRanges (replaceRanges [⟨0, 2, "A"⟩, ⟨3, 5, "C"⟩, ⟨7, 9, "B"⟩] [⟨3, 6⟩]
      [⟨0, 1, "R"⟩] 1) ∧
    ProperRanges (replaceRanges [⟨0, 2, "A"⟩, ⟨3, 5, "C"⟩, ⟨7, 9, "B"⟩] [⟨3, 6⟩]
      [⟨0, 1, "R"⟩] 1) (replaceResultLen 9 [⟨3, 6⟩] 1) ∧
    (replaceRanges [⟨0, 2, "A"⟩, ⟨3, 5, "C"⟩, ⟨7, 9, "B"⟩] [⟨3, 6⟩]
      [⟨0, 1, "R"⟩] 1).Pairwise (fun u v => u.start < v.start) :=
  replace_ranges_invariants [⟨0, 2, "A"⟩, ⟨3, 5, "C"⟩, ⟨7, 9, "B"⟩] [⟨3, 6⟩]
    [⟨0, 1, "R"⟩] 1 9
    (by unfold SepRanges; decide) (by unfold ProperRanges; decide)
    (by unfold SepSpans; decide) (by unfold ProperSpans; decide)
    (by unfold SepRanges; decide) (by unfold ProperRanges; decide)

end TaintTracking
